import Mathlib

/-!
Verification of the frame caching and preload engine (`src/frame_loader.cpp`,
`src/frame_loader.h`) against its design specification.

The loader's shared state (`wanted`, `notify`, `load.done`, `load.frames`,
`load.eof`) and the mutations performed under the loader mutex are embedded
shallowly: each locked region of the C++ code becomes a pure transition
function on `LoaderState`, and the interleavings of `set_request` calls and
worker steps become a reachability relation.

`interval_set.h` is not part of the provided sources, so the interval algebra
is modelled from the specification (half-open intervals, canonical interval
sets closed under union and difference, `overlap_begin` / `overlap_end`
returning iterator positions).  Time is `Seconds`, modelled as `ℚ`; the
distinguished `forever` value represents positive infinity, so the source's
`erase({t, forever})` is modelled by `eraseFrom`, which erases `[t, ∞)`.
-/

namespace pivid

/-- Time domain `Seconds` from spec 3: a scalar with at least microsecond
precision, modelled as the rationals. -/
abbrev Seconds := ℚ

/-- Modelled from the spec: a half-open time range `[begin, end)` with the
`end` field written `end'` because `end` is reserved in Lean.  From spec 3
(`interval_set.h` is not in the provided sources). -/
structure Interval where
  begin : Seconds
  end' : Seconds
deriving DecidableEq

/-- Modelled from the spec: an interval set is an ordered collection of
intervals (spec 3); operations below keep it canonical.  The semantic
content used by the theorems is point membership, which does not depend on
canonical form. -/
abbrev IntervalSet := List Interval

/-- Point membership in a half-open interval `[begin, end)`. -/
def Interval.mem (I : Interval) (t : Seconds) : Prop :=
  I.begin ≤ t ∧ t < I.end'

instance (I : Interval) (t : Seconds) : Decidable (I.mem t) :=
  inferInstanceAs (Decidable (I.begin ≤ t ∧ t < I.end'))

/-- Point membership in an interval set: some stored interval contains `t`. -/
def IntervalSet.memSet (S : IntervalSet) (t : Seconds) : Prop :=
  ∃ I ∈ S, I.mem t

instance (S : IntervalSet) (t : Seconds) : Decidable (S.memSet t) :=
  inferInstanceAs (Decidable (∃ I ∈ S, I.mem t))

/-- Modelled from the spec: `insert(Interval)` of spec 4.1.  Intervals
overlapping or adjacent to the inserted one are coalesced into a single
span (equal endpoints coalesce; `[a,b) ∪ [b,c) = [a,c)`); inserting an
empty interval is a no-op since no stored interval may be empty. -/
def IntervalSet.insertI (S : IntervalSet) (I : Interval) : IntervalSet :=
  if I.end' ≤ I.begin then S
  else
    let before := S.filter (fun J => decide (J.end' < I.begin))
    let after := S.filter (fun J => decide (I.end' < J.begin))
    let touch := S.filter (fun J => decide (I.begin ≤ J.end') && decide (J.begin ≤ I.end'))
    let lo := touch.foldr (fun J m => min J.begin m) I.begin
    let hi := touch.foldr (fun J m => max J.end' m) I.end'
    before ++ ⟨lo, hi⟩ :: after

/-- Modelled from the spec: `erase(Interval)` of spec 4.1.  Erasing `[a,b)`
splits any interval strictly containing it into two pieces; empty pieces
are dropped to preserve canonical form. -/
def IntervalSet.eraseI (S : IntervalSet) (I : Interval) : IntervalSet :=
  if I.end' ≤ I.begin then S
  else
    S.flatMap (fun J =>
      (if J.begin < min J.end' I.begin then [⟨J.begin, min J.end' I.begin⟩] else []) ++
      (if max J.begin I.end' < J.end' then [⟨max J.begin I.end', J.end'⟩] else []))

/-- Modelled from the spec: erasing `{t, forever}` where `forever` stands for
positive infinity (spec 3), i.e. removing every point at or after `a`. -/
def IntervalSet.eraseFrom (S : IntervalSet) (a : Seconds) : IntervalSet :=
  S.flatMap (fun J =>
    if J.begin < min J.end' a then [⟨J.begin, min J.end' a⟩] else [])

/-- Modelled from the spec: `erase(IntervalSet)` of spec 4.1, the subtraction
form `A − B`: erase each interval of `T` in turn. -/
def IntervalSet.eraseSet (S : IntervalSet) (T : IntervalSet) : IntervalSet :=
  T.foldl (fun acc I => acc.eraseI I) S

/-- Modelled from the spec: `overlap_begin(t)` (spec 3), as the iterator
position of the first stored interval intersecting `[t, ∞)`, i.e. the first
with `end > t`; the list length plays the role of the end iterator. -/
def IntervalSet.overlapBeginIdx (S : IntervalSet) (t : Seconds) : Nat :=
  S.findIdx (fun I => decide (t < I.end'))

/-- Modelled from the spec: `overlap_end(t)` (spec 3), as the iterator
position one past the last stored interval intersecting `(−∞, t)`, i.e. the
first with `begin ≥ t`; comparing it with `overlapBeginIdx` tells whether
any stored interval intersects a half-open range, which is how the worker
uses the pair (spec 4.3 step 5, `frame_loader.cpp` lines 197-198). -/
def IntervalSet.overlapEndIdx (S : IntervalSet) (t : Seconds) : Nat :=
  S.findIdx (fun I => decide (t ≤ I.begin))

/-- A decoded media frame as the worker sees it after the unlocked step: its
presentation interval `time` (spec 3, `MediaFrame`), and the uploaded GPU
image, `none` standing for a null image handle (image ids abstract the
`LoadedImage` pointers of `display_output.h`). -/
structure Frame where
  time : Interval
  image : Option Nat
deriving DecidableEq

/-- The loader's mutex-guarded shared state: `wanted` and `notify` from
`ThreadFrameLoader`, and the `Loaded` cache `load` flattened into `done`,
`frames` and `eof` (`frame_loader.cpp` lines 243-245, `frame_loader.h`
`Loaded`, whose header name for `done` is `have`).  `frames` is the
ascending-key map from presentation time to stored (possibly null) image. -/
structure LoaderState where
  wanted : IntervalSet
  notify : Option Nat
  done : IntervalSet
  frames : List (Seconds × Option Nat)
  eof : Option Seconds
deriving DecidableEq

/-- The freshly started loader: everything empty, no EOF known, no notify
stored (spec 3, Lifecycle). -/
def initState : LoaderState :=
  { wanted := [], notify := none, done := [], frames := [], eof := none }

/-- Sorted-map insertion with key replacement, modelling
`load.frames[frame->time.begin] = std::move(image)` on a `std::map`. -/
def mapInsert (m : List (Seconds × Option Nat)) (k : Seconds) (v : Option Nat) :
    List (Seconds × Option Nat) :=
  match m with
  | [] => [(k, v)]
  | e :: rest =>
      if k < e.1 then (k, v) :: e :: rest
      else if k = e.1 then (k, v) :: rest
      else e :: mapInsert rest k v

/-- The range erase `frames.erase(frames.lower_bound(a), frames.lower_bound(b))`
of `frame_loader.cpp` lines 55-58: on the sorted map it removes exactly the
keys in `[a, b)`. -/
def mapEraseRange (m : List (Seconds × Option Nat)) (a b : Seconds) :
    List (Seconds × Option Nat) :=
  m.filter (fun kv => !(decide (a ≤ kv.1) && decide (kv.1 < b)))

/-- The body of `ThreadFrameLoader::set_request` (`frame_loader.cpp` lines
36-65): store the new notify signal first, then, only when the new `wanted`
differs from the current one, erase `to_erase = done − wanted` from `done`
(and the frame keys each erased interval covers) interval by interval,
install the new `wanted` and wake the worker.  The returned Bool reports
whether `wakeup->set()` was called. -/
def setRequest (s : LoaderState) (w : IntervalSet) (n : Option Nat) :
    LoaderState × Bool :=
  let s := { s with notify := n }
  if w = s.wanted then (s, false)
  else
    let to_erase := s.done.eraseSet w
    let done := to_erase.foldl (fun d e => d.eraseI e) s.done
    let frames := to_erase.foldl (fun f e => mapEraseRange f e.begin e.end') s.frames
    ({ s with wanted := w, done := done, frames := frames }, true)

/-- The worker's needed-region computation (`frame_loader.cpp` lines 101-104):
`needed = wanted`, minus `[eof, forever)` when `eof` is known, minus `done`. -/
def needed (s : LoaderState) : IntervalSet :=
  (match s.eof with
    | some e => s.wanted.eraseFrom e
    | none => s.wanted).eraseSet s.done

/-- The worker's re-locked classification of one decode step at interval
`need` (`frame_loader.cpp` lines 183-216).  `fr = none` is the EOF /
swallowed-failure case; otherwise the frame is checked against the current
`wanted`: obsolete (no wanted interval intersects it), partial (the
overlapping interval begins after the frame), or stored.  The Bool reports
whether `++changes` ran. -/
def classifyStep (s : LoaderState) (need : Interval) (fr : Option Frame) :
    LoaderState × Bool :=
  match fr with
  | none =>
      match s.eof with
      | none =>
          ({ s with eof := some need.begin,
                    wanted := s.wanted.eraseFrom need.begin }, true)
      | some e =>
          if need.begin < e then
            ({ s with eof := some need.begin,
                      wanted := s.wanted.eraseFrom need.begin }, true)
          else (s, false)
  | some f =>
      let ob := s.wanted.overlapBeginIdx need.begin
      let oe := s.wanted.overlapEndIdx f.time.end'
      if ob = oe then (s, false)
      else
        let ov := s.wanted.getD ob ⟨0, 0⟩
        if f.time.begin < ov.begin then
          ({ s with done := s.done.insertI ⟨ov.begin, f.time.end'⟩ }, true)
        else
          ({ s with done := s.done.insertI f.time,
                    frames := mapInsert s.frames f.time.begin f.image }, true)

/-- The opener-failure branch (`frame_loader.cpp` lines 139-147): the needed
interval is inserted into `done` ("Pretend as if loaded to avoid looping")
and the pass counts a change. -/
def openerFailStep (s : LoaderState) (need : Interval) : LoaderState × Bool :=
  ({ s with done := s.done.insertI need }, true)

/-- End of a worker pass (`frame_loader.cpp` line 226): the stored notify
signal fires only when the pass recorded at least one change and a signal is
stored; the result is the signal fired, if any. -/
def passNotify (s : LoaderState) (changes : Nat) : Option Nat :=
  if changes ≠ 0 then s.notify else none

/-- Outcome of the unlocked seek / decode / upload region
(`frame_loader.cpp` lines 157-177) as driven by the environment. -/
inductive DecodeOutcome
  /-- `seek_before` or `next_frame` threw `std::runtime_error`. -/
  | fail
  /-- `next_frame` returned no frame: end of stream. -/
  | eofD
  /-- a frame decoded and its image uploaded successfully. -/
  | frameOk (time : Interval) (img : Nat)
  /-- a frame decoded but `display->load_image` threw: the catch block runs
  with `frame` already engaged and `image` still the null pointer. -/
  | frameUploadFail (time : Interval)
deriving DecidableEq

/-- The value of the pair (`frame`, `image`) after the unlocked region for
each outcome, combined into the `Option Frame` the classification reads.
On `frameUploadFail` the optional `frame` remains engaged while the image
is null, exactly as in the source. -/
def unlockedFrame : DecodeOutcome → Option Frame
  | .fail => none
  | .eofD => none
  | .frameOk t i => some ⟨t, some i⟩
  | .frameUploadFail t => some ⟨t, none⟩

/-- Decoder pool selection (`frame_loader.cpp` lines 127-136): take
`upper_bound(need.begin)` over the position-keyed pool, step back one entry
unless already at the first, and reuse the entry found unless the pool is
empty.  Entries are `(position, decoder id)`. -/
def selectDecoder (pool : List (Seconds × Nat)) (t : Seconds) :
    Option (Seconds × Nat) :=
  let i := pool.findIdx (fun e => decide (t < e.1))
  let i2 := if i = 0 then i else i - 1
  pool.get? i2

/-- Decoder choice including the open-new path (`frame_loader.cpp` lines
125-147): reuse the selected entry with its recorded position, or, only
when the pool is empty, open a fresh decoder (`none`) recorded at
position `{}` = 0. -/
def chooseDecoder (pool : List (Seconds × Nat)) (t : Seconds) :
    Seconds × Option Nat :=
  match selectDecoder pool t with
  | some e => (e.1, some e.2)
  | none => ((0 : Seconds), none)

/-- Reachable loader configurations.  `Reach L s` means the shared state `s`
is reachable with `L` the still-unprocessed tail of the worker's pass-start
`needed` snapshot: the loop at `frame_loader.cpp` line 123 iterates over the
`needed` set computed once at lines 101-104 and never re-checks it, so
stale snapshot intervals are still processed after `wanted`, `done` or
`eof` changed mid-pass (via a concurrent `set_request` or an EOF
discovery).  A step either fails to open a decoder for the head interval or
classifies an arbitrary decode outcome for it (decoders, the opener and the
display driver are external collaborators that may fail at any point).
`set_request` calls are admitted between any two steps — an
over-approximation of the real interleavings, where they land during a
decode unlock window or while the worker is idle; this only adds states,
it hides none. -/
inductive Reach : List Interval → LoaderState → Prop
  | init : Reach [] initState
  | request (L : List Interval) (s : LoaderState) (w : IntervalSet) (n : Option Nat) :
      Reach L s → Reach L (setRequest s w n).1
  | startPass (s : LoaderState) : Reach [] s → Reach (needed s) s
  | opener (L : List Interval) (s : LoaderState) (need : Interval) :
      Reach (need :: L) s → Reach L (openerFailStep s need).1
  | classify (L : List Interval) (s : LoaderState) (need : Interval) (fr : Option Frame) :
      Reach (need :: L) s → Reach L (classifyStep s need fr).1

/-- Reachable loader configurations under a stream-consistent environment:
requests lie in nonnegative time; EOF (or a swallowed decode failure) is
only ever reported at a snapshot interval beginning at or after every
region already recorded in `done` and strictly after every stored frame
key; produced frames are nonempty, start at nonnegative time, and end at
or before any already known EOF; and the opener fails only at intervals
starting at nonnegative time and ending at or before any already known
EOF.  The snapshot-list structure is the same as in `Reach`, so stale
pass-start intervals are still processed after mid-pass changes; every
restriction constrains only the external environment (callers, decoders,
the opener), evaluated at the state current when the step happens. -/
inductive ReachC : List Interval → LoaderState → Prop
  | init : ReachC [] initState
  | request (L : List Interval) (s : LoaderState) (w : IntervalSet) (n : Option Nat) :
      ReachC L s → (∀ I ∈ w, 0 ≤ I.begin) → ReachC L (setRequest s w n).1
  | startPass (s : LoaderState) : ReachC [] s → ReachC (needed s) s
  | opener (L : List Interval) (s : LoaderState) (need : Interval) :
      ReachC (need :: L) s →
      0 ≤ need.begin → (∀ e, s.eof = some e → need.end' ≤ e) →
      ReachC L (openerFailStep s need).1
  | classifyNone (L : List Interval) (s : LoaderState) (need : Interval) :
      ReachC (need :: L) s →
      (∀ I ∈ s.done, I.end' ≤ need.begin) →
      (∀ kv ∈ s.frames, kv.1 < need.begin) →
      ReachC L (classifyStep s need none).1
  | classifySome (L : List Interval) (s : LoaderState) (need : Interval) (f : Frame) :
      ReachC (need :: L) s →
      0 ≤ f.time.begin → f.time.begin < f.time.end' →
      (∀ e, s.eof = some e → f.time.end' ≤ e) →
      ReachC L (classifyStep s need (some f)).1

/-- The invariant claimed for all reachable states: when `eof` is known it
is at or after every frame key, and `done ⊆ [0, eof)`. -/
def eofFrameInvariant (s : LoaderState) : Prop :=
  ∀ e, s.eof = some e →
    (∀ kv ∈ s.frames, kv.1 ≤ e) ∧
    (∀ t, s.done.memSet t → 0 ≤ t ∧ t < e)

/-! ### Semantic lemmas for the interval algebra -/

theorem Interval.not_mem_iff {I : Interval} {t : Seconds} :
    ¬ I.mem t ↔ t < I.begin ∨ I.end' ≤ t := by
  unfold Interval.mem
  constructor
  · intro h
    rcases lt_or_le t I.begin with h1 | h1
    · exact Or.inl h1
    · exact Or.inr (le_of_not_lt fun h2 => h ⟨h1, h2⟩)
  · rintro (h1 | h1) ⟨h2, h3⟩
    · exact absurd h2 (not_le.mpr h1)
    · exact absurd h3 (not_lt.mpr h1)

theorem IntervalSet.memSet_append {A B : IntervalSet} {t : Seconds} :
    IntervalSet.memSet (A ++ B) t ↔ A.memSet t ∨ B.memSet t := by
  unfold IntervalSet.memSet
  constructor
  · rintro ⟨I, hI, h⟩
    rcases List.mem_append.mp hI with h2 | h2
    exacts [Or.inl ⟨I, h2, h⟩, Or.inr ⟨I, h2, h⟩]
  · rintro (⟨I, hI, h⟩ | ⟨I, hI, h⟩)
    exacts [⟨I, List.mem_append_left _ hI, h⟩, ⟨I, List.mem_append_right _ hI, h⟩]

theorem IntervalSet.memSet_cons {I : Interval} {S : IntervalSet} {t : Seconds} :
    IntervalSet.memSet (I :: S) t ↔ I.mem t ∨ S.memSet t := by
  unfold IntervalSet.memSet
  constructor
  · rintro ⟨J, hJ, h⟩
    rcases List.mem_cons.mp hJ with rfl | h2
    exacts [Or.inl h, Or.inr ⟨J, h2, h⟩]
  · rintro (h | ⟨J, hJ, h⟩)
    exacts [⟨I, List.mem_cons_self I S, h⟩, ⟨J, List.mem_cons_of_mem I hJ, h⟩]

theorem foldr_min_le_base (L : List Interval) (b : Seconds) :
    L.foldr (fun J m => min J.begin m) b ≤ b := by
  induction L with
  | nil => exact le_refl b
  | cons x xs ih => exact le_trans (min_le_right _ _) ih

theorem foldr_min_le_mem {L : List Interval} {J : Interval} (h : J ∈ L) (b : Seconds) :
    L.foldr (fun J m => min J.begin m) b ≤ J.begin := by
  induction L with
  | nil => cases h
  | cons x xs ih =>
    rcases List.mem_cons.mp h with rfl | h2
    · exact min_le_left _ _
    · exact le_trans (min_le_right _ _) (ih h2)

theorem le_foldr_min {L : List Interval} {b a : Seconds}
    (hL : ∀ J ∈ L, a ≤ J.begin) (hb : a ≤ b) :
    a ≤ L.foldr (fun J m => min J.begin m) b := by
  induction L with
  | nil => exact hb
  | cons x xs ih =>
    exact le_min (hL x (List.mem_cons_self x xs))
      (ih fun J hJ => hL J (List.mem_cons_of_mem x hJ))

theorem exists_of_foldr_min_le {L : List Interval} {b t : Seconds}
    (h : L.foldr (fun J m => min J.begin m) b ≤ t) :
    b ≤ t ∨ ∃ J ∈ L, J.begin ≤ t := by
  induction L with
  | nil => exact Or.inl h
  | cons x xs ih =>
    rcases min_le_iff.mp h with h1 | h1
    · exact Or.inr ⟨x, List.mem_cons_self x xs, h1⟩
    · rcases ih h1 with h2 | ⟨J, hJ, h3⟩
      · exact Or.inl h2
      · exact Or.inr ⟨J, List.mem_cons_of_mem x hJ, h3⟩

theorem base_le_foldr_max (L : List Interval) (b : Seconds) :
    b ≤ L.foldr (fun J m => max J.end' m) b := by
  induction L with
  | nil => exact le_refl b
  | cons x xs ih => exact le_trans ih (le_max_right _ _)

theorem mem_le_foldr_max {L : List Interval} {J : Interval} (h : J ∈ L) (b : Seconds) :
    J.end' ≤ L.foldr (fun J m => max J.end' m) b := by
  induction L with
  | nil => cases h
  | cons x xs ih =>
    rcases List.mem_cons.mp h with rfl | h2
    · exact le_max_left _ _
    · exact le_trans (ih h2) (le_max_right _ _)

theorem foldr_max_le {L : List Interval} {b c : Seconds}
    (hL : ∀ J ∈ L, J.end' ≤ c) (hb : b ≤ c) :
    L.foldr (fun J m => max J.end' m) b ≤ c := by
  induction L with
  | nil => exact hb
  | cons x xs ih =>
    exact max_le (hL x (List.mem_cons_self x xs))
      (ih fun J hJ => hL J (List.mem_cons_of_mem x hJ))

theorem exists_of_lt_foldr_max {L : List Interval} {b t : Seconds}
    (h : t < L.foldr (fun J m => max J.end' m) b) :
    t < b ∨ ∃ J ∈ L, t < J.end' := by
  induction L with
  | nil => exact Or.inl h
  | cons x xs ih =>
    rcases lt_max_iff.mp h with h1 | h1
    · exact Or.inr ⟨x, List.mem_cons_self x xs, h1⟩
    · rcases ih h1 with h2 | ⟨J, hJ, h3⟩
      · exact Or.inl h2
      · exact Or.inr ⟨J, List.mem_cons_of_mem x hJ, h3⟩

theorem IntervalSet.mem_insertI {S : IntervalSet} {I : Interval} {t : Seconds} :
    (S.insertI I).memSet t ↔ S.memSet t ∨ I.mem t := by
  unfold IntervalSet.insertI
  by_cases hI : I.end' ≤ I.begin
  · rw [if_pos hI]
    constructor
    · exact Or.inl
    · rintro (h | ⟨h1, h2⟩)
      · exact h
      · exact absurd (lt_of_lt_of_le h2 hI) (not_lt.mpr h1)
  · rw [if_neg hI]
    have hne : I.begin < I.end' := not_le.mp hI
    simp only []
    rw [IntervalSet.memSet_append, IntervalSet.memSet_cons]
    constructor
    · rintro (⟨J, hJ, h⟩ | h | ⟨J, hJ, h⟩)
      · exact Or.inl ⟨J, (List.mem_filter.mp hJ).1, h⟩
      · -- membership in the coalesced span
        obtain ⟨hlo, hhi⟩ := h
        rcases lt_or_le t I.begin with hlt | hge
        · rcases exists_of_foldr_min_le hlo with h2 | ⟨J, hJ, h3⟩
          · exact absurd hlt (not_lt.mpr h2)
          · have hJS := (List.mem_filter.mp hJ).1
            have hprop := (List.mem_filter.mp hJ).2
            simp only [Bool.and_eq_true, decide_eq_true_eq] at hprop
            exact Or.inl ⟨J, hJS, h3, lt_of_lt_of_le hlt hprop.1⟩
        · rcases lt_or_le t I.end' with hlt2 | hge2
          · exact Or.inr ⟨hge, hlt2⟩
          · rcases exists_of_lt_foldr_max hhi with h2 | ⟨J, hJ, h3⟩
            · exact absurd h2 (not_lt.mpr hge2)
            · have hJS := (List.mem_filter.mp hJ).1
              have hprop := (List.mem_filter.mp hJ).2
              simp only [Bool.and_eq_true, decide_eq_true_eq] at hprop
              exact Or.inl ⟨J, hJS, le_trans hprop.2 hge2, h3⟩
      · exact Or.inl ⟨J, (List.mem_filter.mp hJ).1, h⟩
    · rintro (⟨J, hJ, h⟩ | h)
      · by_cases h1 : J.end' < I.begin
        · exact Or.inl ⟨J, List.mem_filter.mpr ⟨hJ, by simpa using h1⟩, h⟩
        · by_cases h2 : I.end' < J.begin
          · exact Or.inr (Or.inr ⟨J, List.mem_filter.mpr ⟨hJ, by simpa using h2⟩, h⟩)
          · have hJt : J ∈ S.filter
                (fun J => decide (I.begin ≤ J.end') && decide (J.begin ≤ I.end')) :=
              List.mem_filter.mpr ⟨hJ, by
                simp only [Bool.and_eq_true, decide_eq_true_eq]
                exact ⟨le_of_not_lt h1, le_of_not_lt h2⟩⟩
            refine Or.inr (Or.inl ⟨le_trans (foldr_min_le_mem hJt _) h.1, ?_⟩)
            exact lt_of_lt_of_le h.2 (mem_le_foldr_max hJt _)
      · refine Or.inr (Or.inl ⟨le_trans (foldr_min_le_base _ _) h.1, ?_⟩)
        exact lt_of_lt_of_le h.2 (base_le_foldr_max _ _)

theorem IntervalSet.mem_eraseI {S : IntervalSet} {I : Interval} {t : Seconds} :
    (S.eraseI I).memSet t ↔ S.memSet t ∧ ¬ I.mem t := by
  unfold IntervalSet.eraseI
  by_cases hI : I.end' ≤ I.begin
  · rw [if_pos hI]
    have hnm : ¬ I.mem t := fun h => absurd (lt_of_lt_of_le h.2 hI) (not_lt.mpr h.1)
    simp [hnm]
  · rw [if_neg hI]
    constructor
    · rintro ⟨J', hJ', hmem⟩
      rcases List.mem_flatMap.mp hJ' with ⟨J, hJ, hpiece⟩
      rcases List.mem_append.mp hpiece with hp | hp
      · split_ifs at hp with hg
        · rcases List.mem_singleton.mp hp with rfl
          obtain ⟨h1, h2⟩ := hmem
          have h2' := lt_min_iff.mp h2
          exact ⟨⟨J, hJ, h1, h2'.1⟩, Interval.not_mem_iff.mpr (Or.inl h2'.2)⟩
        · cases hp
      · split_ifs at hp with hg
        · rcases List.mem_singleton.mp hp with rfl
          obtain ⟨h1, h2⟩ := hmem
          have h1' := max_le_iff.mp h1
          exact ⟨⟨J, hJ, h1'.1, h2⟩, Interval.not_mem_iff.mpr (Or.inr h1'.2)⟩
        · cases hp
    · rintro ⟨⟨J, hJ, h1, h2⟩, hnot⟩
      rcases Interval.not_mem_iff.mp hnot with hb | ha
      · refine ⟨⟨J.begin, min J.end' I.begin⟩, List.mem_flatMap.mpr ⟨J, hJ, ?_⟩,
          h1, lt_min_iff.mpr ⟨h2, hb⟩⟩
        apply List.mem_append_left
        rw [if_pos (lt_of_le_of_lt h1 (lt_min_iff.mpr ⟨h2, hb⟩))]
        exact List.mem_singleton.mpr rfl
      · refine ⟨⟨max J.begin I.end', J.end'⟩, List.mem_flatMap.mpr ⟨J, hJ, ?_⟩,
          max_le_iff.mpr ⟨h1, ha⟩, h2⟩
        apply List.mem_append_right
        rw [if_pos (lt_of_le_of_lt (max_le_iff.mpr ⟨h1, ha⟩) h2)]
        exact List.mem_singleton.mpr rfl

theorem IntervalSet.mem_eraseFrom {S : IntervalSet} {a t : Seconds} :
    (S.eraseFrom a).memSet t ↔ S.memSet t ∧ t < a := by
  unfold IntervalSet.eraseFrom
  constructor
  · rintro ⟨J', hJ', hmem⟩
    rcases List.mem_flatMap.mp hJ' with ⟨J, hJ, hp⟩
    split_ifs at hp with hg
    · rcases List.mem_singleton.mp hp with rfl
      obtain ⟨h1, h2⟩ := hmem
      have h2' := lt_min_iff.mp h2
      exact ⟨⟨J, hJ, h1, h2'.1⟩, h2'.2⟩
    · cases hp
  · rintro ⟨⟨J, hJ, h1, h2⟩, hlt⟩
    refine ⟨⟨J.begin, min J.end' a⟩, List.mem_flatMap.mpr ⟨J, hJ, ?_⟩,
      h1, lt_min_iff.mpr ⟨h2, hlt⟩⟩
    rw [if_pos (lt_of_le_of_lt h1 (lt_min_iff.mpr ⟨h2, hlt⟩))]
    exact List.mem_singleton.mpr rfl

theorem IntervalSet.mem_eraseSet {S T : IntervalSet} {t : Seconds} :
    (S.eraseSet T).memSet t ↔ S.memSet t ∧ ¬ T.memSet t := by
  induction T generalizing S with
  | nil =>
    unfold IntervalSet.eraseSet
    simp [IntervalSet.memSet]
  | cons I T ih =>
    have step : IntervalSet.eraseSet S (I :: T) = IntervalSet.eraseSet (S.eraseI I) T := rfl
    rw [step, ih, IntervalSet.mem_eraseI, IntervalSet.memSet_cons]
    tauto

theorem mem_mapEraseRange {m : List (Seconds × Option Nat)} {a b : Seconds}
    {kv : Seconds × Option Nat} :
    kv ∈ mapEraseRange m a b ↔ kv ∈ m ∧ ¬ (a ≤ kv.1 ∧ kv.1 < b) := by
  unfold mapEraseRange
  rw [List.mem_filter]
  simp only [Bool.not_eq_true', Bool.and_eq_false_iff, decide_eq_false_iff_not,
    not_le, not_lt]
  constructor
  · rintro ⟨h1, h2⟩
    refine ⟨h1, fun hc => ?_⟩
    rcases h2 with h | h
    · exact absurd hc.1 (not_le.mpr h)
    · exact absurd hc.2 (not_lt.mpr h)
  · rintro ⟨h1, h2⟩
    refine ⟨h1, ?_⟩
    by_cases ha : a ≤ kv.1
    · exact Or.inr (le_of_not_lt fun hb => h2 ⟨ha, hb⟩)
    · exact Or.inl (lt_of_not_le ha)

theorem mem_foldl_mapEraseRange {L : List Interval} {m : List (Seconds × Option Nat)}
    {kv : Seconds × Option Nat} :
    kv ∈ L.foldl (fun f e => mapEraseRange f e.begin e.end') m ↔
      kv ∈ m ∧ ∀ e ∈ L, ¬ (e.begin ≤ kv.1 ∧ kv.1 < e.end') := by
  induction L generalizing m with
  | nil => simp
  | cons x xs ih =>
    rw [List.foldl_cons, ih, mem_mapEraseRange]
    constructor
    · rintro ⟨⟨h1, h2⟩, h3⟩
      refine ⟨h1, fun e he => ?_⟩
      rcases List.mem_cons.mp he with rfl | he2
      exacts [h2, h3 e he2]
    · rintro ⟨h1, h2⟩
      exact ⟨⟨h1, h2 x (List.mem_cons_self x xs)⟩,
        fun e he => h2 e (List.mem_cons_of_mem x he)⟩

theorem mem_mapInsert {m : List (Seconds × Option Nat)} {k : Seconds}
    {v : Option Nat} {kv : Seconds × Option Nat} :
    kv ∈ mapInsert m k v → kv = (k, v) ∨ kv ∈ m := by
  induction m with
  | nil =>
    intro h
    unfold mapInsert at h
    exact Or.inl (List.mem_singleton.mp h)
  | cons e rest ih =>
    intro h
    unfold mapInsert at h
    split_ifs at h with h1 h2
    · rcases List.mem_cons.mp h with rfl | h3
      exacts [Or.inl rfl, Or.inr h3]
    · rcases List.mem_cons.mp h with rfl | h3
      exacts [Or.inl rfl, Or.inr (List.mem_cons_of_mem e h3)]
    · rcases List.mem_cons.mp h with h0 | h3
      · refine Or.inr ?_
        rw [h0]
        exact List.mem_cons_self e rest
      · rcases ih h3 with h4 | h4
        exacts [Or.inl h4, Or.inr (List.mem_cons_of_mem e h4)]

/-! ### Endpoint bounds preserved by the interval operations -/

theorem insertI_begins {S : IntervalSet} {I : Interval} {a : Seconds}
    (hS : ∀ J ∈ S, a ≤ J.begin) (hI : a ≤ I.begin) :
    ∀ J ∈ S.insertI I, a ≤ J.begin := by
  intro J hJ
  unfold IntervalSet.insertI at hJ
  split_ifs at hJ with h
  · exact hS J hJ
  · simp only [] at hJ
    rcases List.mem_append.mp hJ with hb | hr
    · exact hS J (List.mem_filter.mp hb).1
    · rcases List.mem_cons.mp hr with rfl | ha
      · exact le_foldr_min (fun J2 hJ2 => hS J2 (List.mem_filter.mp hJ2).1) hI
      · exact hS J (List.mem_filter.mp ha).1

theorem insertI_ends {S : IntervalSet} {I : Interval} {b : Seconds}
    (hS : ∀ J ∈ S, J.end' ≤ b) (hI : I.end' ≤ b) :
    ∀ J ∈ S.insertI I, J.end' ≤ b := by
  intro J hJ
  unfold IntervalSet.insertI at hJ
  split_ifs at hJ with h
  · exact hS J hJ
  · simp only [] at hJ
    rcases List.mem_append.mp hJ with hb | hr
    · exact hS J (List.mem_filter.mp hb).1
    · rcases List.mem_cons.mp hr with rfl | ha
      · exact foldr_max_le (fun J2 hJ2 => hS J2 (List.mem_filter.mp hJ2).1) hI
      · exact hS J (List.mem_filter.mp ha).1

theorem eraseI_begins {S : IntervalSet} {I : Interval} {a : Seconds}
    (hS : ∀ J ∈ S, a ≤ J.begin) :
    ∀ J ∈ S.eraseI I, a ≤ J.begin := by
  intro J hJ
  unfold IntervalSet.eraseI at hJ
  split_ifs at hJ with h
  · exact hS J hJ
  · rcases List.mem_flatMap.mp hJ with ⟨J0, hJ0, hp⟩
    rcases List.mem_append.mp hp with hp | hp
    · split_ifs at hp with hg
      · rcases List.mem_singleton.mp hp with rfl
        exact hS J0 hJ0
      · cases hp
    · split_ifs at hp with hg
      · rcases List.mem_singleton.mp hp with rfl
        exact le_trans (hS J0 hJ0) (le_max_left _ _)
      · cases hp

theorem eraseI_ends {S : IntervalSet} {I : Interval} {b : Seconds}
    (hS : ∀ J ∈ S, J.end' ≤ b) :
    ∀ J ∈ S.eraseI I, J.end' ≤ b := by
  intro J hJ
  unfold IntervalSet.eraseI at hJ
  split_ifs at hJ with h
  · exact hS J hJ
  · rcases List.mem_flatMap.mp hJ with ⟨J0, hJ0, hp⟩
    rcases List.mem_append.mp hp with hp | hp
    · split_ifs at hp with hg
      · rcases List.mem_singleton.mp hp with rfl
        exact le_trans (min_le_left _ _) (hS J0 hJ0)
      · cases hp
    · split_ifs at hp with hg
      · rcases List.mem_singleton.mp hp with rfl
        exact hS J0 hJ0
      · cases hp

theorem eraseFrom_begins {S : IntervalSet} {a c : Seconds}
    (hS : ∀ J ∈ S, c ≤ J.begin) :
    ∀ J ∈ S.eraseFrom a, c ≤ J.begin := by
  intro J hJ
  unfold IntervalSet.eraseFrom at hJ
  rcases List.mem_flatMap.mp hJ with ⟨J0, hJ0, hp⟩
  split_ifs at hp with hg
  · rcases List.mem_singleton.mp hp with rfl
    exact hS J0 hJ0
  · cases hp

theorem eraseFrom_ends {S : IntervalSet} {a : Seconds} :
    ∀ J ∈ S.eraseFrom a, J.end' ≤ a := by
  intro J hJ
  unfold IntervalSet.eraseFrom at hJ
  rcases List.mem_flatMap.mp hJ with ⟨J0, hJ0, hp⟩
  split_ifs at hp with hg
  · rcases List.mem_singleton.mp hp with rfl
    exact min_le_right _ _
  · cases hp

theorem eraseSet_begins {T S : IntervalSet} {a : Seconds}
    (hS : ∀ J ∈ S, a ≤ J.begin) :
    ∀ J ∈ S.eraseSet T, a ≤ J.begin := by
  induction T generalizing S with
  | nil => exact hS
  | cons I T ih => exact ih (eraseI_begins hS)

theorem eraseSet_ends {T S : IntervalSet} {b : Seconds}
    (hS : ∀ J ∈ S, J.end' ≤ b) :
    ∀ J ∈ S.eraseSet T, J.end' ≤ b := by
  induction T generalizing S with
  | nil => exact hS
  | cons I T ih => exact ih (eraseI_ends hS)

theorem needed_begins {s : LoaderState} (h : ∀ J ∈ s.wanted, 0 ≤ J.begin) :
    ∀ J ∈ needed s, 0 ≤ J.begin := by
  cases he : s.eof with
  | none =>
    simp only [needed, he]
    exact eraseSet_begins h
  | some e =>
    simp only [needed, he]
    exact eraseSet_begins (eraseFrom_begins h)

theorem needed_ends {s : LoaderState} {e : Seconds} (he : s.eof = some e) :
    ∀ J ∈ needed s, J.end' ≤ e := by
  simp only [needed, he]
  exact eraseSet_ends eraseFrom_ends

/-! ### The inductive state invariant for consistent executions -/

/-- Inductive invariant carried through `ReachC`: every `wanted` and `done`
interval starts at nonnegative time, and when `eof` is known every `done`
interval ends at or before it and every frame key lies strictly before it. -/
def goodState (s : LoaderState) : Prop :=
  (∀ J ∈ s.wanted, 0 ≤ J.begin) ∧
  (∀ J ∈ s.done, 0 ≤ J.begin) ∧
  (∀ e, s.eof = some e →
    (∀ J ∈ s.done, J.end' ≤ e) ∧ (∀ kv ∈ s.frames, kv.1 < e))

theorem goodState_setRequest {s : LoaderState} {w : IntervalSet} {n : Option Nat}
    (hg : goodState s) (hw : ∀ I ∈ w, 0 ≤ I.begin) :
    goodState (setRequest s w n).1 := by
  obtain ⟨h1, h2, h3⟩ := hg
  unfold setRequest
  simp only []
  split_ifs with h
  · exact ⟨h1, h2, h3⟩
  · refine ⟨hw, eraseSet_begins h2, ?_⟩
    intro e he
    refine ⟨eraseSet_ends (h3 e he).1, ?_⟩
    intro kv hkv
    exact (h3 e he).2 kv (mem_foldl_mapEraseRange.mp hkv).1

/-- Unfolding equation for the EOF branch of the classification. -/
theorem classifyStep_none_eq (s : LoaderState) (need : Interval) :
    classifyStep s need none =
      match s.eof with
      | none => ({ s with eof := some need.begin,
                          wanted := s.wanted.eraseFrom need.begin }, true)
      | some e =>
          if need.begin < e then
            ({ s with eof := some need.begin,
                      wanted := s.wanted.eraseFrom need.begin }, true)
          else (s, false) := rfl

/-- Conditional unfolding: EOF discovered while `eof` was unset. -/
theorem classifyStep_none_none {s : LoaderState} (need : Interval)
    (he : s.eof = none) :
    classifyStep s need none =
      ({ s with eof := some need.begin,
                wanted := s.wanted.eraseFrom need.begin }, true) := by
  rw [classifyStep_none_eq, he]

/-- Conditional unfolding: EOF reported while `eof` was already known. -/
theorem classifyStep_none_some {s : LoaderState} (need : Interval) {e : Seconds}
    (he : s.eof = some e) :
    classifyStep s need none =
      if need.begin < e then
        ({ s with eof := some need.begin,
                  wanted := s.wanted.eraseFrom need.begin }, true)
      else (s, false) := by
  rw [classifyStep_none_eq, he]

/-- Unfolding equation for the frame branch of the classification. -/
theorem classifyStep_some_eq (s : LoaderState) (need : Interval) (f : Frame) :
    classifyStep s need (some f) =
      (if s.wanted.overlapBeginIdx need.begin = s.wanted.overlapEndIdx f.time.end' then
        (s, false)
      else if f.time.begin <
          (s.wanted.getD (s.wanted.overlapBeginIdx need.begin) ⟨0, 0⟩).begin then
        ({ s with done := (s.done.insertI ⟨(s.wanted.getD
            (s.wanted.overlapBeginIdx need.begin) ⟨0, 0⟩).begin, f.time.end'⟩) }, true)
      else
        ({ s with done := s.done.insertI f.time,
                  frames := mapInsert s.frames f.time.begin f.image }, true)) := rfl

theorem goodState_opener {s : LoaderState} {need : Interval}
    (hg : goodState s) (h0 : 0 ≤ need.begin)
    (hend : ∀ e, s.eof = some e → need.end' ≤ e) :
    goodState (openerFailStep s need).1 := by
  obtain ⟨h1, h2, h3⟩ := hg
  refine ⟨h1, insertI_begins h2 h0, ?_⟩
  intro e he
  have he' : s.eof = some e := he
  exact ⟨insertI_ends (h3 e he').1 (hend e he'), (h3 e he').2⟩

theorem goodState_classifyNone {s : LoaderState} {need : Interval}
    (hg : goodState s)
    (hdone : ∀ I ∈ s.done, I.end' ≤ need.begin)
    (hfr : ∀ kv ∈ s.frames, kv.1 < need.begin) :
    goodState (classifyStep s need none).1 := by
  obtain ⟨h1, h2, h3⟩ := hg
  cases he : s.eof with
  | none =>
    rw [classifyStep_none_none need he]
    refine ⟨eraseFrom_begins h1, h2, ?_⟩
    intro e hesome
    cases hesome
    exact ⟨hdone, hfr⟩
  | some e0 =>
    rw [classifyStep_none_some need he]
    split_ifs with hlt
    · refine ⟨eraseFrom_begins h1, h2, ?_⟩
      intro e hesome
      cases hesome
      exact ⟨hdone, hfr⟩
    · exact ⟨h1, h2, h3⟩

theorem goodState_classifySome {s : LoaderState} {need : Interval} {f : Frame}
    (hg : goodState s)
    (hb : 0 ≤ f.time.begin) (hne : f.time.begin < f.time.end')
    (hend : ∀ e, s.eof = some e → f.time.end' ≤ e) :
    goodState (classifyStep s need (some f)).1 := by
  obtain ⟨h1, h2, h3⟩ := hg
  rw [classifyStep_some_eq]
  split_ifs with hob hpart
  · exact ⟨h1, h2, h3⟩
  · have hov : 0 ≤ (s.wanted.getD (s.wanted.overlapBeginIdx need.begin) ⟨0, 0⟩).begin := by
      by_cases hlen : s.wanted.overlapBeginIdx need.begin < s.wanted.length
      · rw [List.getD_eq_getElem?_getD, List.getElem?_eq_getElem hlen]
        simp only [Option.getD_some]
        exact h1 _ (List.getElem_mem hlen)
      · rw [List.getD_eq_getElem?_getD, List.getElem?_eq_none (le_of_not_lt hlen)]
        exact le_refl 0
    refine ⟨h1, insertI_begins h2 hov, ?_⟩
    intro e he
    exact ⟨insertI_ends (h3 e he).1 (hend e he), (h3 e he).2⟩
  · refine ⟨h1, insertI_begins h2 hb, ?_⟩
    intro e he
    refine ⟨insertI_ends (h3 e he).1 (hend e he), ?_⟩
    intro kv hkv
    rcases mem_mapInsert hkv with h0 | h4
    · rw [h0]
      exact lt_of_lt_of_le hne (hend e he)
    · exact (h3 e he).2 kv h4

theorem goodState_reachC {L : List Interval} {s : LoaderState} (h : ReachC L s) :
    goodState s := by
  induction h with
  | init =>
    refine ⟨?_, ?_, ?_⟩ <;> intro J hJ <;> cases hJ
  | request L s w n hr hw ih => exact goodState_setRequest ih hw
  | startPass s hr ih => exact ih
  | opener L s need hr h0 hend ih => exact goodState_opener ih h0 hend
  | classifyNone L s need hr hdone hfr ih => exact goodState_classifyNone ih hdone hfr
  | classifySome L s need f hr hb hne hend ih => exact goodState_classifySome ih hb hne hend

/-! ### Unfolding equations for `setRequest` -/

theorem setRequest_eq_wanted {s : LoaderState} {w : IntervalSet} {n : Option Nat}
    (h : w = s.wanted) :
    setRequest s w n = ({ s with notify := n }, false) := by
  unfold setRequest
  rw [if_pos h]

theorem setRequest_ne_wanted {s : LoaderState} {w : IntervalSet} {n : Option Nat}
    (h : w ≠ s.wanted) :
    setRequest s w n =
      ({ s with
          notify := n,
          wanted := w,
          done := IntervalSet.eraseSet s.done (IntervalSet.eraseSet s.done w),
          frames := ((IntervalSet.eraseSet s.done w).foldl
            (fun f e => mapEraseRange f e.begin e.end') s.frames) }, true) := by
  unfold setRequest
  rw [if_neg h]
  rfl

theorem setRequest_wanted (s : LoaderState) (w : IntervalSet) (n : Option Nat) :
    (setRequest s w n).1.wanted = w := by
  by_cases h : w = s.wanted
  · rw [setRequest_eq_wanted h]
    exact h.symm
  · rw [setRequest_ne_wanted h]

/-! ### Claims -/

/-- Counterexample trace for C1: request `{[5, 6)}`, decode and store the
frame `[5, 6)`, widen the request to `{[0, 6)}`, then hit a decode failure
(treated as EOF) at the needed interval `[0, 5)`, which sets `eof = 0`
while the frame keyed `5` and the done interval `[5, 6)` survive. -/
def cexS1 : LoaderState := (setRequest initState [⟨5, 6⟩] none).1

def cexS2 : LoaderState := (classifyStep cexS1 ⟨5, 6⟩ (some ⟨⟨5, 6⟩, some 0⟩)).1

def cexS3 : LoaderState := (setRequest cexS2 [⟨0, 6⟩] none).1

def cexS4 : LoaderState := (classifyStep cexS3 ⟨0, 5⟩ none).1

/-- C1, as stated, is false: on the reachable state `cexS4` the cache holds
`eof = 0` together with a frame keyed `5` (and `done = {[5, 6)}`), because
discovering EOF at `need.begin` erases `wanted` beyond it but trims neither
`frames` nor `done` already loaded at later timestamps
(`frame_loader.cpp` lines 185-195).  Each pass of the trace processes its
whole snapshot (a single interval), and the `set_request` calls happen
while the worker is idle, so every step is realizable. -/
theorem C1_counterexample : ¬ (∀ L s, Reach L s → eofFrameInvariant s) := by
  intro h
  have r1 : Reach [] cexS1 := Reach.request [] initState [⟨5, 6⟩] none Reach.init
  have r1p : Reach [⟨5, 6⟩] cexS1 := Reach.startPass cexS1 r1
  have r2 : Reach [] cexS2 :=
    Reach.classify [] cexS1 ⟨5, 6⟩ (some ⟨⟨5, 6⟩, some 0⟩) r1p
  have r3 : Reach [] cexS3 := Reach.request [] cexS2 [⟨0, 6⟩] none r2
  have r3p : Reach [⟨0, 5⟩] cexS3 := Reach.startPass cexS3 r3
  have r4 : Reach [] cexS4 := Reach.classify [] cexS3 ⟨0, 5⟩ none r3p
  have h0 : cexS4.eof = some 0 := by decide
  have h5 : ((5 : Seconds), (some 0 : Option Nat)) ∈ cexS4.frames := by decide
  have h6 := (h [] cexS4 r4 0 h0).1 (5, some 0) h5
  exact absurd h6 (by decide)

/-- C1, amended: restricted to executions where the external environment is
stream-consistent — EOF is reported only at snapshot intervals beginning at
or after every recorded `done` interval and strictly after every frame key,
produced frames are nonempty with nonnegative start and end at or before
any known `eof`, the opener fails only at intervals with nonnegative start
ending at or before any known `eof`, and requests lie in nonnegative
time — the invariant holds at every reachable configuration, mid-pass ones
with stale snapshot intervals included: `eof` is `none` or at or after
every key of `frames`, and `done ⊆ [0, eof)`. -/
theorem C1_eof_invariant (L : List Interval) (s : LoaderState) (h : ReachC L s) :
    eofFrameInvariant s := by
  obtain ⟨h1, h2, h3⟩ := goodState_reachC h
  intro e he
  refine ⟨fun kv hkv => le_of_lt ((h3 e he).2 kv hkv), ?_⟩
  rintro t ⟨J, hJ, hm1, hm2⟩
  exact ⟨le_trans (h2 J hJ) hm1, lt_of_lt_of_le hm2 ((h3 e he).1 J hJ)⟩

/-- States used by the witness of the amended C1: a consistent run that
requests `{[0, 6)}` and immediately discovers EOF at `0`. -/
def witS1 : LoaderState := (setRequest initState [⟨0, 6⟩] none).1

def witS2 : LoaderState := (classifyStep witS1 ⟨0, 6⟩ none).1

theorem C1_eof_invariant_witness : eofFrameInvariant witS2 :=
  C1_eof_invariant [] witS2
    (ReachC.classifyNone [] witS1 ⟨0, 6⟩
      (ReachC.startPass witS1
        (ReachC.request [] initState [⟨0, 6⟩] none ReachC.init (by decide)))
      (by decide) (by decide))

/-- A loader state with an empty cache and the given request, used by
concrete witnesses below. -/
def emptyLoad (w : IntervalSet) : LoaderState :=
  { wanted := w, notify := none, done := [], frames := [], eof := none }

/-- C2 is contradicted by the code: when `display->load_image` throws during
the unlocked step, the `catch` at `frame_loader.cpp` line 174 runs with the
optional `frame` already engaged (it was assigned before the upload), so the
classification at lines 196-216 treats the step as a successful decode.  At
this failing input (fresh loader wanting `{[0, 1)}`, decoder yields the frame
`[0, 1)`, upload throws) the worker stores a frame entry keyed `0` holding a
null image and inserts `[0, 1)` into `done`, with `eof` left unset — instead
of the claimed decode-failure treatment (EOF-for-region, no frame entry, no
image). -/
theorem C2_upload_failure_stores_null_image :
    classifyStep (emptyLoad [⟨0, 1⟩]) ⟨0, 1⟩
        (unlockedFrame (DecodeOutcome.frameUploadFail ⟨0, 1⟩)) =
      ({ emptyLoad [⟨0, 1⟩] with done := [⟨0, 1⟩], frames := [((0 : Seconds), (none : Option Nat))] }, true) := by
  decide

/-- C3: when `set_request` is called with a `wanted` set different from the
current one, every `done` region outside the new set and every frame key
inside an erased region are dropped before the call returns, so a subsequent
`loaded()` observes `done ⊆ w` and (given the cache invariant that every
frame key lies in `done`) no frame key outside `w`
(`frame_loader.cpp` lines 50-61). -/
theorem C3_shrink_drops_outside (s : LoaderState) (w : IntervalSet) (n : Option Nat)
    (hne : w ≠ s.wanted)
    (hinv : ∀ kv ∈ s.frames, s.done.memSet kv.1) :
    (∀ t, (setRequest s w n).1.done.memSet t → IntervalSet.memSet w t) ∧
    (∀ kv ∈ (setRequest s w n).1.frames, IntervalSet.memSet w kv.1) := by
  rw [setRequest_ne_wanted hne]
  constructor
  · intro t ht
    obtain ⟨hd, hno⟩ := IntervalSet.mem_eraseSet.mp ht
    by_contra hw
    exact hno (IntervalSet.mem_eraseSet.mpr ⟨hd, hw⟩)
  · intro kv hkv
    obtain ⟨hm, herased⟩ := mem_foldl_mapEraseRange.mp hkv
    by_contra hw
    obtain ⟨e, he, hmem⟩ :=
      IntervalSet.mem_eraseSet.mpr ⟨hinv kv hm, hw⟩
    exact herased e he ⟨hmem.1, hmem.2⟩

/-- A loader state with `{[0, 10)}` wanted and done and one frame at `5`. -/
def c3state : LoaderState :=
  { wanted := [⟨0, 10⟩], notify := none, done := [⟨0, 10⟩], frames := [(5, some 1)], eof := none }

theorem C3_witness :
    (∀ t, (setRequest c3state [⟨0, 3⟩] none).1.done.memSet t →
      IntervalSet.memSet [⟨0, 3⟩] t) ∧
    (∀ kv ∈ (setRequest c3state [⟨0, 3⟩] none).1.frames,
      IntervalSet.memSet [⟨0, 3⟩] kv.1) :=
  C3_shrink_drops_outside _ _ _ (by decide) (by decide)

/-- C4: the EOF classification (`frame_loader.cpp` lines 185-195): if `eof`
is unset or `need.begin < eof`, the worker sets `eof = need.begin`, erases
`[eof, forever)` from `wanted` and counts a change; if `need.begin` equals
the known `eof` nothing changes; if `need.begin` lies after the known `eof`
it only logs and nothing changes. -/
theorem C4_eof_classification (s : LoaderState) (need : Interval) :
    (s.eof = none →
      classifyStep s need none =
        ({ s with eof := some need.begin,
                  wanted := s.wanted.eraseFrom need.begin }, true)) ∧
    (∀ e, s.eof = some e → need.begin < e →
      classifyStep s need none =
        ({ s with eof := some need.begin,
                  wanted := s.wanted.eraseFrom need.begin }, true)) ∧
    (∀ e, s.eof = some e → need.begin = e → classifyStep s need none = (s, false)) ∧
    (∀ e, s.eof = some e → e < need.begin → classifyStep s need none = (s, false)) := by
  refine ⟨fun he => classifyStep_none_none need he, ?_, ?_, ?_⟩
  · intro e he hlt
    rw [classifyStep_none_some need he, if_pos hlt]
  · intro e he heq
    rw [classifyStep_none_some need he, if_neg (by rw [heq]; exact lt_irrefl e)]
  · intro e he hgt
    rw [classifyStep_none_some need he, if_neg (not_lt.mpr (le_of_lt hgt))]

theorem C4_witness :
    classifyStep (emptyLoad [⟨0, 6⟩]) ⟨2, 3⟩ none =
      ({ emptyLoad [⟨0, 6⟩] with eof := some 2, wanted := IntervalSet.eraseFrom [⟨0, 6⟩] 2 }, true) :=
  (C4_eof_classification _ _).1 rfl

/-- C5: when no wanted interval intersects the produced frame (witnessed by
`overlap_begin(need.begin) == overlap_end(frame.time.end)`), the worker
discards the frame and its uploaded image and leaves the whole state — in
particular `done` and `frames` — unchanged, counting no change, so the
region can be retried if `wanted` later widens
(`frame_loader.cpp` lines 197-199). -/
theorem C5_obsolete_frame_discarded (s : LoaderState) (need : Interval) (f : Frame)
    (h : s.wanted.overlapBeginIdx need.begin = s.wanted.overlapEndIdx f.time.end') :
    classifyStep s need (some f) = (s, false) := by
  rw [classifyStep_some_eq, if_pos h]

theorem C5_witness :
    classifyStep (emptyLoad [⟨10, 20⟩]) ⟨0, 1⟩ (some ⟨⟨0, 1⟩, some 7⟩) =
      (emptyLoad [⟨10, 20⟩], false) :=
  C5_obsolete_frame_discarded _ _ _ (by decide)

/-- C6: when the intersecting wanted interval begins strictly after
`frame.time.begin`, the worker inserts `[overlap.begin, frame.time.end)`
into `done`, counts a change, and leaves `frames` unchanged — in particular
no entry keyed `frame.time.begin` is stored
(`frame_loader.cpp` lines 200-206). -/
theorem C6_partial_overlap (s : LoaderState) (need : Interval) (f : Frame)
    (hob : s.wanted.overlapBeginIdx need.begin ≠ s.wanted.overlapEndIdx f.time.end')
    (hpart : f.time.begin <
      (s.wanted.getD (s.wanted.overlapBeginIdx need.begin) ⟨0, 0⟩).begin) :
    (classifyStep s need (some f)).1.done =
      (s.done.insertI ⟨(s.wanted.getD (s.wanted.overlapBeginIdx need.begin)
        ⟨0, 0⟩).begin, f.time.end'⟩) ∧
    (classifyStep s need (some f)).1.frames = s.frames ∧
    (classifyStep s need (some f)).2 = true := by
  rw [classifyStep_some_eq, if_neg hob, if_pos hpart]
  exact ⟨rfl, rfl, rfl⟩

theorem C6_witness :
    ((classifyStep (emptyLoad [⟨2, 6⟩]) ⟨2, 4⟩ (some ⟨⟨1, 3⟩, some 7⟩)).1.done =
      IntervalSet.insertI [] ⟨2, 3⟩) ∧
    ((classifyStep (emptyLoad [⟨2, 6⟩]) ⟨2, 4⟩ (some ⟨⟨1, 3⟩, some 7⟩)).1.frames = []) ∧
    ((classifyStep (emptyLoad [⟨2, 6⟩]) ⟨2, 4⟩ (some ⟨⟨1, 3⟩, some 7⟩)).2 = true) :=
  C6_partial_overlap _ _ _ (by decide) (by decide)

/-- C7: calling `set_request` with a `wanted` equal to the currently stored
one only replaces the notify signal: `done`, `frames`, `wanted` and `eof`
are untouched, no erasure happens and the worker is not woken; consequently
a second `set_request` with the same set never wakes the worker, so
`set_request(w); set_request(w)` triggers at most one wakeup
(`frame_loader.cpp` lines 45-64). -/
theorem C7_idempotent_request (s : LoaderState) (w : IntervalSet) (n n2 : Option Nat) :
    (w = s.wanted →
      (setRequest s w n).1 = { s with notify := n } ∧ (setRequest s w n).2 = false) ∧
    (setRequest (setRequest s w n).1 w n2).2 = false := by
  constructor
  · intro h
    rw [setRequest_eq_wanted h]
    exact ⟨rfl, rfl⟩
  · rw [setRequest_eq_wanted (setRequest_wanted s w n).symm]

theorem C7_witness :
    ((setRequest initState [] none).1 = { initState with notify := none } ∧
      (setRequest initState [] none).2 = false) ∧
    (setRequest (setRequest initState [] none).1 [] none).2 = false :=
  ⟨(C7_idempotent_request initState [] none none).1 rfl,
    (C7_idempotent_request initState [] none none).2⟩

/-- C9: when the opener callback throws for a needed interval, the worker
inserts the whole interval into `done` (storing no frame), counts a change,
and — since `needed` subtracts `done` — no point of that interval is needed
afterwards, so the opener is not re-invoked for the region until the
request changes (`frame_loader.cpp` lines 139-147). -/
theorem C9_opener_failure (s : LoaderState) (need : Interval)
    (hn : need ∈ needed s) :
    (openerFailStep s need).1.done = s.done.insertI need ∧
    (openerFailStep s need).1.frames = s.frames ∧
    (openerFailStep s need).2 = true ∧
    (∀ t, need.mem t → ¬ (needed (openerFailStep s need).1).memSet t) := by
  refine ⟨rfl, rfl, rfl, ?_⟩
  intro t ht hmem
  unfold needed at hmem
  exact (IntervalSet.mem_eraseSet.mp hmem).2
    (IntervalSet.mem_insertI.mpr (Or.inr ht))

theorem C9_witness :
    ((openerFailStep (emptyLoad [⟨0, 4⟩]) ⟨0, 4⟩).1.done =
      IntervalSet.insertI [] ⟨0, 4⟩) ∧
    ((openerFailStep (emptyLoad [⟨0, 4⟩]) ⟨0, 4⟩).1.frames = []) ∧
    ((openerFailStep (emptyLoad [⟨0, 4⟩]) ⟨0, 4⟩).2 = true) ∧
    (∀ t, Interval.mem ⟨0, 4⟩ t →
      ¬ (needed (openerFailStep (emptyLoad [⟨0, 4⟩]) ⟨0, 4⟩).1).memSet t) :=
  C9_opener_failure _ _ (by decide)

/-- C10: `set_request` stores the new notify signal before comparing the
wanted sets, so the previously stored signal is overwritten even when the
new `wanted` equals the current one, and a call that omits the argument
(null signal) clears it, after which a worker pass fires no caller signal
regardless of its change count (`frame_loader.cpp` lines 41, 45, 226). -/
theorem C10_notify_stored_unconditionally (s : LoaderState) (w : IntervalSet)
    (n : Option Nat) (c : Nat) :
    (setRequest s w n).1.notify = n ∧
    (setRequest s w none).1.notify = none ∧
    passNotify (setRequest s w none).1 c = none := by
  have hn : ∀ m : Option Nat, (setRequest s w m).1.notify = m := by
    intro m
    by_cases h : w = s.wanted
    · rw [setRequest_eq_wanted h]
    · rw [setRequest_ne_wanted h]
  refine ⟨hn n, hn none, ?_⟩
  unfold passNotify
  split_ifs with hc
  · exact hn none
  · rfl

/-- Unfolding equation for `selectDecoder`. -/
theorem selectDecoder_eq (pool : List (Seconds × Nat)) (t : Seconds) :
    selectDecoder pool t =
      pool.get? (if pool.findIdx (fun e => decide (t < e.1)) = 0 then
        pool.findIdx (fun e => decide (t < e.1))
      else pool.findIdx (fun e => decide (t < e.1)) - 1) := rfl

/-- C8: over the position-keyed decoder pool (a `std::map`, so keys strictly
increasing), the worker reuses the entry whose position is the largest at or
before `need.begin` (an exact match being that largest entry); when no entry
is at or before, it takes the smallest entry; and only when the pool is
empty does it open a new decoder, recorded at position `0`
(`frame_loader.cpp` lines 125-147). -/
theorem C8_decoder_selection (pool : List (Seconds × Nat)) (t : Seconds)
    (hs : List.Pairwise (fun a b => a.1 < b.1) pool) :
    (∀ p ∈ pool, p.1 ≤ t →
      ∃ q, selectDecoder pool t = some q ∧ q ∈ pool ∧ q.1 ≤ t ∧
        ∀ r ∈ pool, r.1 ≤ t → r.1 ≤ q.1) ∧
    (pool ≠ [] → (∀ p ∈ pool, t < p.1) →
      ∃ q, selectDecoder pool t = some q ∧ q ∈ pool ∧ ∀ r ∈ pool, q.1 ≤ r.1) ∧
    (pool = [] → selectDecoder pool t = none ∧ chooseDecoder pool t = (0, none)) := by
  have hsg := List.pairwise_iff_getElem.mp hs
  refine ⟨?_, ?_, ?_⟩
  · intro p hp hple
    obtain ⟨k, hk, hkeq⟩ := List.mem_iff_getElem.mp hp
    have hlen : 0 < pool.length := lt_of_le_of_lt (Nat.zero_le k) hk
    have hhead : (pool.get ⟨0, hlen⟩).1 ≤ t := by
      rcases Nat.eq_zero_or_pos k with hk0 | hk0
      · rw [List.get_eq_getElem]
        subst hk0
        rw [hkeq]
        exact hple
      · refine le_trans (le_of_lt ?_) (hkeq ▸ hple)
        rw [List.get_eq_getElem]
        exact hsg 0 k hlen hk hk0
    have hine : pool.findIdx (fun e => decide (t < e.1)) ≠ 0 := by
      intro h0
      have hw : pool.findIdx (fun e => decide (t < e.1)) < pool.length := by
        rw [h0]; exact hlen
      have := List.findIdx_getElem (w := hw)
      rw [decide_eq_true_eq] at this
      rw [List.get_eq_getElem] at hhead
      have h0' : pool[pool.findIdx fun e => decide (t < e.1)] = pool[0] := by
        congr 1
      rw [h0'] at this
      exact absurd hhead (not_le.mpr this)
    have hpos : 0 < pool.findIdx (fun e => decide (t < e.1)) :=
      Nat.pos_of_ne_zero hine
    have hsub : pool.findIdx (fun e => decide (t < e.1)) - 1 <
        pool.findIdx (fun e => decide (t < e.1)) :=
      Nat.sub_lt hpos Nat.one_pos
    have hi1 : pool.findIdx (fun e => decide (t < e.1)) - 1 < pool.length :=
      lt_of_lt_of_le hsub (List.findIdx_le_length _)
    refine ⟨pool.get ⟨_, hi1⟩, ?_, List.get_mem _ _ _, ?_, ?_⟩
    · rw [selectDecoder_eq, if_neg hine, List.get?_eq_getElem?,
        List.getElem?_eq_getElem hi1, List.get_eq_getElem]
    · have := List.not_of_lt_findIdx hsub
      rw [decide_eq_false_iff_not, not_lt] at this
      rw [List.get_eq_getElem]
      exact this
    · intro r hr hrle
      obtain ⟨j, hj, hjeq⟩ := List.mem_iff_getElem.mp hr
      rw [List.get_eq_getElem]
      rw [← hjeq]
      by_cases hji : j < pool.findIdx (fun e => decide (t < e.1))
      · have hj1 : j ≤ pool.findIdx (fun e => decide (t < e.1)) - 1 :=
          Nat.le_sub_one_of_lt hji
        rcases Nat.lt_or_ge j (pool.findIdx (fun e => decide (t < e.1)) - 1) with hlt | hge
        · exact le_of_lt (hsg j _ hj hi1 hlt)
        · have : j = pool.findIdx (fun e => decide (t < e.1)) - 1 :=
            Nat.le_antisymm hj1 hge
          subst this
          exact le_refl _
      · exfalso
        have hile : pool.findIdx (fun e => decide (t < e.1)) ≤ j := Nat.le_of_not_lt hji
        have hiw : pool.findIdx (fun e => decide (t < e.1)) < pool.length :=
          lt_of_le_of_lt hile hj
        have hpi := List.findIdx_getElem (w := hiw)
        rw [decide_eq_true_eq] at hpi
        have hij : (pool[pool.findIdx fun e => decide (t < e.1)]).1 ≤ pool[j].1 := by
          rcases Nat.lt_or_ge (pool.findIdx (fun e => decide (t < e.1))) j with hlt | hge
          · exact le_of_lt (hsg _ j hiw hj hlt)
          · have heq : pool.findIdx (fun e => decide (t < e.1)) = j :=
              Nat.le_antisymm hile hge
            subst heq
            exact le_refl _
        have : t < pool[j].1 := lt_of_lt_of_le hpi hij
        rw [hjeq] at this
        exact absurd hrle (not_le.mpr this)
  · intro hne hall
    have hlen : 0 < pool.length := List.length_pos.mpr hne
    have hhead : t < (pool.get ⟨0, hlen⟩).1 := hall _ (List.get_mem _ _ _)
    have hi0 : pool.findIdx (fun e => decide (t < e.1)) = 0 := by
      rw [List.findIdx_eq hlen]
      refine ⟨?_, fun j hj => absurd hj (Nat.not_lt_zero j)⟩
      rw [decide_eq_true_eq]
      rw [List.get_eq_getElem] at hhead
      exact hhead
    refine ⟨pool.get ⟨0, hlen⟩, ?_, List.get_mem _ _ _, ?_⟩
    · rw [selectDecoder_eq, if_pos hi0, hi0, List.get?_eq_getElem?,
        List.getElem?_eq_getElem hlen, List.get_eq_getElem]
    · intro r hr
      obtain ⟨j, hj, hjeq⟩ := List.mem_iff_getElem.mp hr
      rw [List.get_eq_getElem, ← hjeq]
      rcases Nat.eq_zero_or_pos j with hj0 | hj0
      · subst hj0
        exact le_refl _
      · exact le_of_lt (hsg 0 j hlen hj hj0)
  · intro h
    subst h
    exact ⟨rfl, rfl⟩

theorem C8_witness :
    (∃ q, selectDecoder [((1 : Seconds), 10), (3, 11), (7, 12)] 4 = some q ∧
      q ∈ [((1 : Seconds), 10), (3, 11), (7, 12)] ∧ q.1 ≤ 4 ∧
      ∀ r ∈ [((1 : Seconds), 10), (3, 11), (7, 12)], r.1 ≤ 4 → r.1 ≤ q.1) ∧
    (∃ q, selectDecoder [((1 : Seconds), 10), (3, 11), (7, 12)] 0 = some q ∧
      q ∈ [((1 : Seconds), 10), (3, 11), (7, 12)] ∧
      ∀ r ∈ [((1 : Seconds), 10), (3, 11), (7, 12)], q.1 ≤ r.1) ∧
    (selectDecoder ([] : List (Seconds × Nat)) 4 = none ∧
      chooseDecoder ([] : List (Seconds × Nat)) 4 = (0, none)) :=
  ⟨(C8_decoder_selection [(1, 10), (3, 11), (7, 12)] 4 (by decide)).1
      (3, 11) (by decide) (by decide),
    (C8_decoder_selection [(1, 10), (3, 11), (7, 12)] 0 (by decide)).2.1
      (by decide) (by decide),
    (C8_decoder_selection [] 4 (by decide)).2.2 rfl⟩

end pivid
